import Mathlib

/-!
Verification of the OpenAI-compatible NotebookLM API server (`api_server.py`).

The development shallowly embeds the request-handling pipeline of the server:
text is modelled as `List Char`, Python string helpers (`str.split()`,
`str.strip()`, slicing) are modelled by explicit list functions, and the
specific `re.sub` calls of `normalize_markdown` / `clean_markdown_text` are
modelled by recursive scanners that reproduce the matching semantics of each
concrete pattern (leftmost scan, greedy/lazy quantifiers with the relevant
backtracking behaviour, MULTILINE anchors).  Recursive scanners take an
explicit fuel argument, always called with the input length; every recursive
call consumes at least one character, so the fuel never runs out on the
initial call.
-/

namespace NLM

/-- Python whitespace (the ASCII part of `\s`, and of the default `str.split`
and `str.strip` separators): space, tab, newline, carriage return, vertical
tab, form feed. -/
def pyIsSpace (c : Char) : Bool :=
  c = ' ' || c = '\t' || c = '\n' || c = '\r' || c = '\x0b' || c = '\x0c'

/-- Length of the longest prefix of `cs` all of whose characters satisfy `p`. -/
def countWhile (p : Char → Bool) (cs : List Char) : Nat :=
  (cs.takeWhile p).length

/-- Fueled worker for `pyWords`: splits on runs of whitespace, dropping
empty pieces, exactly like Python's `text.split()`. -/
def splitWSF : Nat → List Char → List (List Char)
  | 0, _ => []
  | _ + 1, [] => []
  | fuel + 1, c :: rest =>
    if pyIsSpace c then splitWSF fuel rest
    else (c :: rest.takeWhile (fun d => !pyIsSpace d)) ::
      splitWSF fuel (rest.dropWhile (fun d => !pyIsSpace d))

/-- Python `text.split()` (no separator argument). -/
def pyWords (cs : List Char) : List (List Char) :=
  splitWSF cs.length cs

/-- Python `sep.join(words)` for a separator `sep`. -/
def pyJoin (sep : List Char) : List (List Char) → List Char
  | [] => []
  | [w] => w
  | w :: ws => w ++ sep ++ pyJoin sep ws

/-- Concatenation of a list of lists. -/
def catList {α : Type} (l : List (List α)) : List α :=
  l.foldr (fun a b => a ++ b) []

/-- Fueled model of Python `range(start, stop, step)` for a positive step. -/
def pyRangeF : Nat → Nat → Nat → Nat → List Nat
  | 0, _, _, _ => []
  | fuel + 1, start, stop, step =>
    if start < stop then start :: pyRangeF fuel (start + step) stop step else []

/-- Python `range(start, stop, step)`, `step ≥ 1`.  The fuel `stop + 1`
dominates the number of iterations. -/
def pyRange (start stop step : Nat) : List Nat :=
  pyRangeF (stop + 1) start stop step

/-- The streaming chunker of `stream_chat_completion` (api_server.py:380-388):
split the processed answer into words, compute
`chunk_size = max(1, len(words) // 20)`, slice the word list in consecutive
runs of that size (`words[i:i+chunk_size]` for `i in range(0, len(words),
chunk_size)`), join each run with single spaces, and prefix every fragment
after the first with one space. -/
def fragmentsSrc (answer : List Char) : List (List Char) :=
  let words := pyWords answer
  let chunk_size := max 1 (words.length / 20)
  (pyRange 0 words.length chunk_size).map (fun i =>
    let content := pyJoin [' '] ((words.drop i).take chunk_size)
    if 0 < i then ' ' :: content else content)

/-- Fueled grouping of a list into consecutive runs of length `csz`
(the last run may be shorter). -/
def groupsOfF : Nat → Nat → List (List Char) → List (List (List Char))
  | 0, _, _ => []
  | _ + 1, _, [] => []
  | fuel + 1, csz, w :: ws =>
    (w :: ws).take csz :: groupsOfF fuel csz ((w :: ws).drop csz)

/-- Spec-side description of the chunker, written independently following the
claim: group the words into consecutive runs of `chunk_size = max(1,
word_count / 20)` words (last run possibly shorter), render each run as its
single-space join, and prefix each non-first fragment with exactly one
space. -/
def spacePrefixed (gs : List (List (List Char))) : List (List Char) :=
  match gs with
  | [] => []
  | g :: rest => pyJoin [' '] g :: rest.map (fun g' => ' ' :: pyJoin [' '] g')

def fragmentsSpec (answer : List Char) : List (List Char) :=
  let words := pyWords answer
  let chunk_size := max 1 (words.length / 20)
  spacePrefixed (groupsOfF (words.length + 1) chunk_size words)

/-! ### Markdown post-processing

Models of `normalize_markdown` (api_server.py:161-186) and
`clean_markdown_text` (api_server.py:190-233).  Each `re.sub` call is
modelled by one fueled scanner named after its position in the source. -/

/-- The backtick character. -/
def btk : Char := Char.ofNat 96

/-- Python `str.strip()` (ASCII whitespace). -/
def pyStrip (cs : List Char) : List Char :=
  ((cs.dropWhile pyIsSpace).reverse.dropWhile pyIsSpace).reverse

/-- `re.sub(r'([^\n])\n(#{1,6}\s+)', r'\1\n\n\2', text)` — insert a blank
line before a heading line (api_server.py:173).  A match is a non-newline
character, a newline, one to six hashes (seven or more hashes never match),
and a maximal nonempty run of whitespace. -/
def n1F : Nat → List Char → List Char
  | 0, cs => cs
  | _ + 1, [] => []
  | fuel + 1, a :: rest =>
    let afterNl := rest.drop 1
    let r := countWhile (fun d => d = '#') afterNl
    let w := countWhile pyIsSpace (afterNl.drop r)
    if a ≠ '\n' ∧ rest.head? = some '\n' ∧ 1 ≤ r ∧ r ≤ 6 ∧ 1 ≤ w then
      a :: '\n' :: '\n' :: (afterNl.take (r + w) ++ n1F fuel (afterNl.drop (r + w)))
    else a :: n1F fuel rest

/-- Whether an optional character exists and is neither a newline nor a hash
(the class `[^\n#]`). -/
def notNlHashOpt : Option Char → Bool
  | some ch => ch ≠ '\n' && ch ≠ '#'
  | none => false

/-- Backtracking search used by `n2F`: try whitespace-run lengths `w, w-1,
…, 1` (the greedy `\s+`); for each, the line content `[^\n]+` is forced to be
the maximal non-newline run, which must be nonempty and followed by a newline
and then a character in `[^\n#]`.  Returns the first `(w, contentLength)`
that matches. -/
def n2FindW (afterH : List Char) : Nat → Option (Nat × Nat)
  | 0 => none
  | w + 1 =>
    let q := afterH.drop (w + 1)
    let M := countWhile (fun d => d ≠ '\n') q
    if 1 ≤ M ∧ q[M]? = some '\n' ∧ notNlHashOpt q[M + 1]? = true then
      some (w + 1, M)
    else n2FindW afterH w

/-- `re.sub(r'(#{1,6}\s+[^\n]+)\n([^\n#])', r'\1\n\n\2', text)` — insert a
blank line after a heading line (api_server.py:174). -/
def n2F : Nat → List Char → List Char
  | 0, cs => cs
  | _ + 1, [] => []
  | fuel + 1, c :: rest =>
    let r := countWhile (fun d => d = '#') (c :: rest)
    let afterH := (c :: rest).drop r
    let W := countWhile pyIsSpace afterH
    if 1 ≤ r ∧ r ≤ 6 then
      match n2FindW afterH W with
      | some (w, M) =>
        (c :: rest).take (r + w + M) ++
          ('\n' :: '\n' :: afterH.getD (w + M + 1) ' ' ::
            n2F fuel (afterH.drop (w + M + 2)))
      | none => c :: n2F fuel rest
    else c :: n2F fuel rest

/-- Whether an optional character exists and is a bullet marker
(the class `[\*\-\+]`). -/
def isBulletOpt : Option Char → Bool
  | some b => b = '*' || b = '-' || b = '+'
  | none => false

/-- `re.sub(r'([^\n])\n([\*\-\+]\s+)', r'\1\n\n\2', text)` — insert a blank
line before a list item (api_server.py:177). -/
def n3F : Nat → List Char → List Char
  | 0, cs => cs
  | _ + 1, [] => []
  | fuel + 1, a :: rest =>
    let afterNl := rest.drop 1
    let w := countWhile pyIsSpace (afterNl.drop 1)
    if a ≠ '\n' ∧ rest.head? = some '\n' ∧ isBulletOpt afterNl.head? = true ∧ 1 ≤ w then
      a :: '\n' :: '\n' :: (afterNl.take (1 + w) ++ n3F fuel (afterNl.drop (1 + w)))
    else a :: n3F fuel rest

/-- Whether an optional character exists and is not a newline. -/
def nonNlOpt : Option Char → Bool
  | some ch => ch ≠ '\n'
  | none => false

/-- `re.sub(r'([^\n])\n(```)', r'\1\n\n\2', text)` — blank line before a
fenced code block delimiter (api_server.py:180). -/
def n4F : Nat → List Char → List Char
  | 0, cs => cs
  | _ + 1, [] => []
  | fuel + 1, a :: rest =>
    if a ≠ '\n' ∧ ('\n' :: btk :: btk :: [btk]).isPrefixOf rest = true then
      a :: '\n' :: '\n' :: btk :: btk :: btk :: n4F fuel (rest.drop 4)
    else a :: n4F fuel rest

/-- `re.sub(r'(```)\n([^\n])', r'\1\n\n\2', text)` — blank line after a
fenced code block delimiter (api_server.py:181). -/
def n5F : Nat → List Char → List Char
  | 0, cs => cs
  | _ + 1, [] => []
  | fuel + 1, c :: rest =>
    if (btk :: btk :: btk :: ['\n']).isPrefixOf (c :: rest) = true ∧
        nonNlOpt (c :: rest)[4]? = true then
      btk :: btk :: btk :: '\n' :: '\n' :: (c :: rest).getD 4 ' ' ::
        n5F fuel ((c :: rest).drop 5)
    else c :: n5F fuel rest

/-- Collapse every maximal run of `m` or more newlines to exactly `k`
newlines.  With `m = 4`, `k = 3` this is `re.sub(r'\n{4,}', '\n\n\n', text)`
(api_server.py:184); with `m = 3`, `k = 2` it is
`re.sub(r'\n{3,}', '\n\n', text)` (api_server.py:228). -/
def collapseRunsF (m k : Nat) : Nat → List Char → List Char
  | 0, cs => cs
  | _ + 1, [] => []
  | fuel + 1, c :: rest =>
    if c = '\n' then
      (if m ≤ countWhile (fun d => d = '\n') (c :: rest) then List.replicate k '\n'
        else List.replicate (countWhile (fun d => d = '\n') (c :: rest)) '\n') ++
        collapseRunsF m k fuel
          ((c :: rest).drop (countWhile (fun d => d = '\n') (c :: rest)))
    else c :: collapseRunsF m k fuel rest

/-- `normalize_markdown` (api_server.py:161-186): the five spacing
substitutions, then collapsing of 4+ newline runs to `'\n\n\n'`, then
`str.strip()`. -/
def normalize_markdown (text : List Char) : List Char :=
  let t1 := n1F text.length text
  let t2 := n2F t1.length t1
  let t3 := n3F t2.length t2
  let t4 := n4F t3.length t3
  let t5 := n5F t4.length t4
  let t6 := collapseRunsF 4 3 t5.length t5
  pyStrip t6

/-- `re.sub(r'^#{1,6}\s+', '', text, flags=re.MULTILINE)` — remove heading
markers at line starts (api_server.py:203).  The boolean argument tracks
whether the scanner sits at a line start of the original text. -/
def s1F : Nat → Bool → List Char → List Char
  | 0, _, cs => cs
  | _ + 1, _, [] => []
  | fuel + 1, atLS, c :: rest =>
    let r := countWhile (fun d => d = '#') (c :: rest)
    let w := countWhile pyIsSpace ((c :: rest).drop r)
    if atLS = true ∧ 1 ≤ r ∧ r ≤ 6 ∧ 1 ≤ w then
      s1F fuel (((c :: rest).drop r).getD (w - 1) ' ' == '\n') ((c :: rest).drop (r + w))
    else c :: s1F fuel (c == '\n') rest

/-- Lazy-content search for a paired delimiter pattern `D(.+?)D` (no DOTALL:
`.` excludes newlines): the smallest `k ≥ 1` such that the `k` characters
after the opening delimiter contain no newline and are followed by the
closing delimiter. -/
def findCloseF (delim : List Char) : Nat → List Char → Option Nat
  | 0, _ => none
  | _ + 1, [] => none
  | fuel + 1, c :: rest =>
    if c = '\n' then none
    else if delim.isPrefixOf rest = true then some 1
    else match findCloseF delim fuel rest with
      | some i => some (i + 1)
      | none => none

/-- One `re.sub(r'D(.+?)D', r'\1', text)` pass for a delimiter `D`: used for
`**` (api_server.py:206), `__` (207), `*` (210), `_` (211) and the inline
code backtick (222). -/
def subDelimF (delim : List Char) : Nat → List Char → List Char
  | 0, cs => cs
  | _ + 1, [] => []
  | fuel + 1, c :: rest =>
    if delim.isPrefixOf (c :: rest) = true then
      let body := (c :: rest).drop delim.length
      match findCloseF delim body.length body with
      | some k => body.take k ++ subDelimF delim fuel (body.drop (k + delim.length))
      | none => c :: subDelimF delim fuel rest
    else c :: subDelimF delim fuel rest

/-- The replacement text of the bullet substitution; the source file holds
the three characters `â`, `€`, `¢` (a mojibake bullet) followed by a
space. -/
def bulletGlyph : List Char :=
  [Char.ofNat 226, Char.ofNat 8364, Char.ofNat 162, ' ']

/-- `re.sub(r'^\s*[\*\-\+]\s+', 'â€¢ ', text, flags=re.MULTILINE)` — rewrite
list markers (api_server.py:214).  At a line start, the greedy `\s*` run is
followed by a bullet character and at least one whitespace character. -/
def s6F : Nat → Bool → List Char → List Char
  | 0, _, cs => cs
  | _ + 1, _, [] => []
  | fuel + 1, atLS, c :: rest =>
    let W := countWhile pyIsSpace (c :: rest)
    let afterW := (c :: rest).drop W
    let w2 := countWhile pyIsSpace (afterW.drop 1)
    if atLS = true ∧ isBulletOpt afterW.head? = true ∧ 1 ≤ w2 then
      bulletGlyph ++ s6F fuel ((afterW.drop 1).getD (w2 - 1) ' ' == '\n')
        (afterW.drop (1 + w2))
    else c :: s6F fuel (c == '\n') rest

/-- `re.sub(r'^\s*\d+\.\s+', '', text, flags=re.MULTILINE)` — remove
ordered-list numeric prefixes (api_server.py:215). -/
def s7F : Nat → Bool → List Char → List Char
  | 0, _, cs => cs
  | _ + 1, _, [] => []
  | fuel + 1, atLS, c :: rest =>
    let W := countWhile pyIsSpace (c :: rest)
    let afterW := (c :: rest).drop W
    let D := countWhile Char.isDigit afterW
    let w2 := countWhile pyIsSpace (afterW.drop (D + 1))
    if atLS = true ∧ 1 ≤ D ∧ afterW[D]? = some '.' ∧ 1 ≤ w2 then
      s7F fuel ((afterW.drop (D + 1)).getD (w2 - 1) ' ' == '\n')
        (afterW.drop (D + 1 + w2))
    else c :: s7F fuel (c == '\n') rest

/-- A character of the class `[\w]` (ASCII part). -/
def isWordChar (c : Char) : Bool :=
  c.isAlphanum || c = '_'

/-- `re.sub(r'```[\w]*\n', '', text)` — remove an opening fence with its
language tag and trailing newline (api_server.py:218). -/
def s8F : Nat → List Char → List Char
  | 0, cs => cs
  | _ + 1, [] => []
  | fuel + 1, c :: rest =>
    let afterT := (c :: rest).drop 3
    let L := countWhile isWordChar afterT
    if (btk :: btk :: [btk]).isPrefixOf (c :: rest) = true ∧ afterT[L]? = some '\n' then
      s8F fuel (afterT.drop (L + 1))
    else c :: s8F fuel rest

/-- `re.sub(r'```', '', text)` — remove remaining triple backticks
(api_server.py:219). -/
def s9F : Nat → List Char → List Char
  | 0, cs => cs
  | _ + 1, [] => []
  | fuel + 1, c :: rest =>
    if (btk :: btk :: [btk]).isPrefixOf (c :: rest) = true then
      s9F fuel ((c :: rest).drop 3)
    else c :: s9F fuel rest

/-- Backtracking search for a link match after an opening `[`: the smallest
content length `i ≥ 1` (no newline) followed by `](`, such that the inner
lazy search for `)` (again over nonempty newline-free content) also
succeeds; returns `(i, j)` with `j` the inner content length. -/
def findMidF : Nat → List Char → Option (Nat × Nat)
  | 0, _ => none
  | _ + 1, [] => none
  | fuel + 1, c :: rest =>
    if c = '\n' then none
    else if (']' :: ['(']).isPrefixOf rest = true then
      match findCloseF [')'] (rest.drop 2).length (rest.drop 2) with
      | some j => some (1, j)
      | none =>
        match findMidF fuel rest with
        | some (i, j) => some (i + 1, j)
        | none => none
    else
      match findMidF fuel rest with
      | some (i, j) => some (i + 1, j)
      | none => none

/-- `re.sub(r'\[(.+?)\]\(.+?\)', r'\1', text)` — rewrite links `[text](url)`
to `text` (api_server.py:225). -/
def s11F : Nat → List Char → List Char
  | 0, cs => cs
  | _ + 1, [] => []
  | fuel + 1, c :: rest =>
    if c = '[' then
      match findMidF rest.length rest with
      | some (i, j) => rest.take i ++ s11F fuel (rest.drop (i + 2 + j + 1))
      | none => c :: s11F fuel rest
    else c :: s11F fuel rest

/-- `clean_markdown_text` (api_server.py:190-233): remove heading markers,
bold/italic delimiters, list markers, code fences, inline code and links,
collapse 3+ newline runs to `'\n\n'`, and strip. -/
def clean_markdown_text (text : List Char) : List Char :=
  let t1 := s1F text.length true text
  let t2 := subDelimF ['*', '*'] t1.length t1
  let t3 := subDelimF ['_', '_'] t2.length t2
  let t4 := subDelimF ['*'] t3.length t3
  let t5 := subDelimF ['_'] t4.length t4
  let t6 := s6F t5.length true t5
  let t7 := s7F t6.length true t6
  let t8 := s8F t7.length t7
  let t9 := s9F t8.length t8
  let t10 := subDelimF [btk] t9.length t9
  let t11 := s11F t10.length t10
  let t12 := collapseRunsF 3 2 t11.length t11
  pyStrip t12

/-- Whether `cs` contains a run of `m` consecutive newlines. -/
def hasRun (m : Nat) : List Char → Bool
  | [] => decide (m = 0)
  | c :: rest =>
    (List.replicate m '\n').isPrefixOf (c :: rest) || hasRun m rest

/-- Whether `cs` starts with a whitespace character. -/
def headWS (cs : List Char) : Bool :=
  match cs.head? with
  | some c => pyIsSpace c
  | none => false

/-- Whether `cs` ends with a whitespace character. -/
def lastWS (cs : List Char) : Bool :=
  match cs.getLast? with
  | some c => pyIsSpace c
  | none => false

/-- Whether `cs` starts or ends with a whitespace character. -/
def edgeWS (cs : List Char) : Bool :=
  headWS cs || lastWS cs

/-! ### Request pipeline -/

/-- A chat message (`Message` model, api_server.py:65-67). -/
structure Msg where
  role : List Char
  content : List Char
deriving DecidableEq

/-- A chat completion request (`ChatCompletionRequest`, api_server.py:69-75);
only the fields the handler reads are modelled. -/
structure ChatRequest where
  model : List Char
  messages : List Msg
  stream : Bool
  notebook_id : Option (List Char)

/-- The `{message, type, code}` contents of an OpenAI error envelope. -/
structure ErrorEnvelope where
  message : List Char
  etype : List Char
  code : List Char
deriving DecidableEq

/-- The `detail` payload of a raised `HTTPException`: either a plain string
or a dict holding an error envelope. -/
inductive Detail where
  | str (s : List Char)
  | env (e : ErrorEnvelope)
deriving DecidableEq

/-- A raised `HTTPException`: status code plus detail. -/
structure Raised where
  status : Nat
  detail : Detail
deriving DecidableEq

/-- Process-wide configuration read from the environment at startup
(api_server.py:52-54). -/
structure Config where
  apiKey : List Char
  defaultNotebookId : List Char
  cleanMarkdown : Bool

/-- The outcome of the external backend interactions of one request: whether
client construction/authentication succeeds (`AuthTokens.from_storage` +
`NotebookLMClient(auth)`), and whether the single `ask` call succeeds, with
the answer text on success and the exception message on failure. -/
structure Backend where
  clientResult : Except (List Char) Unit
  askResult : Except (List Char) (List Char)

/-- A Python exception as observed by the handler's `except` clauses: either
a raised `HTTPException` or a generic exception carrying a message. -/
inductive PyErr where
  | httpExc (status : Nat) (detail : Detail)
  | exc (msg : List Char)

/-- Models Python `str(e)` as used in the error envelopes.  For a generic
exception this is the exception message; for an `HTTPException` the exact
rendering (status plus detail) is irrelevant to every claim, and the model
returns the embedded message text. -/
def strOfErr : PyErr → List Char
  | .exc m => m
  | .httpExc _ (.str s) => s
  | .httpExc _ (.env e) => e.message

/-- `verify_api_key`'s token extraction (api_server.py:114-118): strip a
single leading `"Bearer "` when present. -/
def stripBearerToken (a : List Char) : List Char :=
  if ("Bearer ".toList).isPrefixOf a = true then a.drop 7 else a

/-- `verify_api_key` (api_server.py:106-120). -/
def verify_api_key (apiKey : List Char) (authorization : Option (List Char)) : Bool :=
  if apiKey.isEmpty then true
  else match authorization with
    | none => false
    | some a => stripBearerToken a == apiKey

/-- The reversed scan of `extract_user_query`'s loop: first element of the
given list whose role is `"user"`, returning its content. -/
def findUserQuery : List Msg → Option (List Char)
  | [] => none
  | m :: rest =>
    if m.role = "user".toList then some m.content else findUserQuery rest

/-- `extract_user_query` (api_server.py:142-158): the content of the most
recent `role == "user"` message, else a raised 400 with code
`no_user_message`. -/
def extract_user_query (messages : List Msg) : Except Raised (List Char) :=
  match findUserQuery messages.reverse with
  | some content => .ok content
  | none => .error ⟨400, .env ⟨"No user message found in request".toList,
      "invalid_request_error".toList, "no_user_message".toList⟩⟩

/-- Notebook resolution (api_server.py:280):
`request.notebook_id or DEFAULT_NOTEBOOK_ID` — `None` and the empty string
both fall back to the default. -/
def resolve_notebook (cfg : Config) (req : ChatRequest) : List Char :=
  match req.notebook_id with
  | some nid => if nid.isEmpty then cfg.defaultNotebookId else nid
  | none => cfg.defaultNotebookId

/-- The try-block of the handlers: `get_notebooklm_client`
(api_server.py:123-139, re-raising any construction failure as a 500
`HTTPException` with an `authentication_error` envelope) followed by the
single `ask` call, whose failure is a generic exception. -/
def ask_pipeline (b : Backend) : Except PyErr (List Char) :=
  match b.clientResult with
  | .error m => .error (.httpExc 500 (.env ⟨"Authentication failed: ".toList ++ m,
      "authentication_error".toList, "auth_failed".toList⟩))
  | .ok _ =>
    match b.askResult with
    | .error m => .error (.exc m)
    | .ok ans => .ok ans

/-- Post-processing selected by the `CLEAN_MARKDOWN` flag
(api_server.py:319-322, 375-378). -/
def postProcess (cleanMd : Bool) (raw : List Char) : List Char :=
  if cleanMd then clean_markdown_text raw else normalize_markdown raw

/-- One choice of a non-streaming response (api_server.py:330-334). -/
structure RespChoice where
  index : Nat
  role : List Char
  content : List Char
  finish_reason : List Char
deriving DecidableEq

/-- The usage block (api_server.py:336-340): whitespace word counts. -/
structure Usage where
  prompt_tokens : Nat
  completion_tokens : Nat
  total_tokens : Nat
deriving DecidableEq

/-- A non-streaming chat completion response (api_server.py:325-341). -/
structure ChatCompletionResponse where
  id : List Char
  created : Nat
  model : List Char
  choices : List RespChoice
  usage : Usage
deriving DecidableEq

/-- `non_stream_chat_completion` (api_server.py:307-357).  `uuidHex` and
`now` stand for the `uuid.uuid4().hex[:8]` and `int(time.time())` values
sampled while building the response.  Any exception of the try-block —
including the `HTTPException` raised by `get_notebooklm_client` — is caught
by the final `except Exception` and re-raised as a 500 `HTTPException` whose
envelope has type `server_error` and code `processing_failed`. -/
def non_stream_chat_completion (cleanMd : Bool) (uuidHex : List Char) (now : Nat)
    (modelName query : List Char) (b : Backend) : Except Raised ChatCompletionResponse :=
  match ask_pipeline b with
  | .error e => .error ⟨500, .env ⟨strOfErr e, "server_error".toList,
      "processing_failed".toList⟩⟩
  | .ok rawAnswer =>
    let answer := postProcess cleanMd rawAnswer
    .ok ⟨"chatcmpl-".toList ++ uuidHex, now, modelName,
      [⟨0, "assistant".toList, answer, "stop".toList⟩],
      ⟨(pyWords query).length, (pyWords answer).length,
        (pyWords query).length + (pyWords answer).length⟩⟩

/-- One choice of a streamed chunk: `delta = {"content": c}` or the empty
delta `{}`, plus the `finish_reason` field. -/
structure ChunkChoice where
  delta : Option (List Char)
  finish_reason : Option (List Char)
deriving DecidableEq

/-- A streamed `chat.completion.chunk` payload (api_server.py:95-100). -/
structure ChatCompletionChunk where
  id : List Char
  created : Nat
  model : List Char
  choices : List ChunkChoice
deriving DecidableEq

/-- One server-sent event of the streaming response: a chunk, the literal
`[DONE]` sentinel, or the error payload of the except-branch. -/
inductive SSE where
  | chunkEvent (c : ChatCompletionChunk)
  | doneEvent
  | errorEvent (env : ErrorEnvelope)
deriving DecidableEq

/-- `stream_chat_completion` (api_server.py:360-433).  `uuidHex` and `now`
stand for the `uuid.uuid4().hex[:8]` and `int(time.time())` values sampled
once at the start of the generator (lines 366-367).  On success: one delta
chunk per fragment, the final `finish_reason="stop"` chunk, then `[DONE]`.
Any exception (client construction, authentication, ask) happens before the
first yield and produces a single error event, with no `[DONE]` after it. -/
def stream_chat_completion (cleanMd : Bool) (uuidHex : List Char) (now : Nat)
    (modelName : List Char) (b : Backend) : List SSE :=
  let completion_id := "chatcmpl-".toList ++ uuidHex
  match ask_pipeline b with
  | .error e => [.errorEvent ⟨strOfErr e, "server_error".toList,
      "streaming_failed".toList⟩]
  | .ok rawAnswer =>
    let answer := postProcess cleanMd rawAnswer
    ((fragmentsSrc answer).map (fun content =>
      SSE.chunkEvent ⟨completion_id, now, modelName, [⟨some content, none⟩]⟩))
    ++ [SSE.chunkEvent ⟨completion_id, now, modelName, [⟨none, some ("stop".toList)⟩]⟩,
      SSE.doneEvent]

/-- A successful result of the `/v1/chat/completions` handler. -/
inductive ChatSuccess where
  | completion (resp : ChatCompletionResponse)
  | streaming (events : List SSE)
deriving DecidableEq

/-- `chat_completions` (api_server.py:265-304): auth check, notebook
resolution, query extraction, then dispatch to the streaming or
non-streaming path.  A `.error` is a raised `HTTPException`, rendered by the
`http_exception_handler` (api_server.py:436-454) with its status code and
its envelope (or, for a string detail, an `api_error` wrapper). -/
def chat_completions (cfg : Config) (uuidHex : List Char) (now : Nat)
    (req : ChatRequest) (authorization : Option (List Char)) (b : Backend) :
    Except Raised ChatSuccess :=
  if verify_api_key cfg.apiKey authorization = false then
    .error ⟨401, .str ("Invalid API key".toList)⟩
  else
    let notebook_id := resolve_notebook cfg req
    if notebook_id.isEmpty then
      .error ⟨400, .env ⟨("notebook_id is required (set in request or NOTEBOOKLM_NOTEBOOK_ID env var)".toList),
        "invalid_request_error".toList, "missing_notebook_id".toList⟩⟩
    else
      match extract_user_query req.messages with
      | .error r => .error r
      | .ok query =>
        if req.stream then
          .ok (.streaming (stream_chat_completion cfg.cleanMarkdown uuidHex now req.model b))
        else
          match non_stream_chat_completion cfg.cleanMarkdown uuidHex now req.model query b with
          | .error r => .error r
          | .ok resp => .ok (.completion resp)

/-- Whether a handler outcome is the 400 `missing_notebook_id` error. -/
def isMissingNotebookError (r : Except Raised ChatSuccess) : Bool :=
  match r with
  | .error ⟨400, .env e⟩ => e.code == "missing_notebook_id".toList
  | _ => false

/-- Whether a stream event is the error payload. -/
def isErrorEv : SSE → Bool
  | .errorEvent _ => true
  | _ => false

/-- Whether a stream event is the `[DONE]` sentinel. -/
def isDoneEv : SSE → Bool
  | .doneEvent => true
  | _ => false

/-- Whether a stream event, if it is a chunk, carries the given completion id
and created timestamp. -/
def chunkHasIdCreated (cid : List Char) (created : Nat) : SSE → Bool
  | .chunkEvent ch => ch.id == cid && ch.created == created
  | _ => true

/-- Membership in the character class that `plainText` forbids: markdown
metacharacters and digits. -/
def okChar (c : Char) : Bool :=
  !(c = '#' || c = '*' || c = '_' || c = btk || c = '[' || c = '-' || c = '+' || c.isDigit)

/-- A formalization of "already-stripped plain text": no markdown
metacharacters or digits, no run of three or more newlines, and no leading or
trailing whitespace. -/
def plainText (cs : List Char) : Bool :=
  cs.all okChar && !hasRun 3 cs && !edgeWS cs

/-! Lemmas relating the index-based slicing of the source to the
recursive grouping of the spec. -/

theorem chunkAlign (words : List (List Char)) (csz : Nat) :
    ∀ fuel s, (pyRangeF fuel s words.length csz).map
        (fun i => (words.drop i).take csz)
      = groupsOfF fuel csz (words.drop s) := by
  intro fuel
  induction fuel with
  | zero => intro s; rfl
  | succ n ih =>
    intro s
    by_cases h : s < words.length
    · have hne : words.drop s ≠ [] := by
        intro hcontra
        have hlen := congrArg List.length hcontra
        simp only [List.length_drop, List.length_nil] at hlen
        omega
      rw [pyRangeF]
      simp only [if_pos h]
      obtain ⟨w, ws, hws⟩ : ∃ w ws, words.drop s = w :: ws := by
        cases hd : words.drop s with
        | nil => exact absurd hd hne
        | cons a l => exact ⟨a, l, rfl⟩
      rw [hws, groupsOfF, ← hws, List.map_cons, ih (s + csz)]
      have hdd : List.drop csz (List.drop s words) = List.drop (s + csz) words := by
        rw [List.drop_drop]
      rw [hdd]
    · rw [pyRangeF]
      simp only [if_neg h]
      have hnil : words.drop s = [] := by
        apply List.drop_eq_nil_of_le
        omega
      rw [hnil]
      rfl

theorem pyRangeF_ge (fuel : Nat) :
    ∀ start stop step i, i ∈ pyRangeF fuel start stop step → start ≤ i := by
  induction fuel with
  | zero => intro _ _ _ _ h; simp [pyRangeF] at h
  | succ n ih =>
    intro start stop step i h
    rw [pyRangeF] at h
    by_cases hlt : start < stop
    · simp only [if_pos hlt, List.mem_cons] at h
      rcases h with h | h
      · omega
      · have := ih (start + step) stop step i h
        omega
    · simp [if_neg hlt] at h

/-- The source chunker coincides with its spec-side description. -/
theorem fragments_eq_spec (answer : List Char) :
    fragmentsSrc answer = fragmentsSpec answer := by
  simp only [fragmentsSrc, fragmentsSpec]
  set words := pyWords answer with hw
  set csz := max 1 (words.length / 20) with hcsz
  by_cases h0 : words.length = 0
  · have hnil : words = [] := List.eq_nil_of_length_eq_zero h0
    rw [hnil] at *
    simp [pyRange, pyRangeF, groupsOfF, spacePrefixed]
  · have hpos : 0 < words.length := Nat.pos_of_ne_zero h0
    have hne : words ≠ [] := by
      intro hcontra
      rw [hcontra] at hpos
      simp at hpos
    obtain ⟨w, ws, hws⟩ : ∃ w ws, words = w :: ws := by
      cases hd : words with
      | nil => exact absurd hd hne
      | cons a l => exact ⟨a, l, rfl⟩
    rw [pyRange, pyRangeF]
    simp only [if_pos hpos]
    conv_rhs => rw [hws]
    rw [groupsOfF, ← hws, spacePrefixed]
    simp only [List.map_cons, List.drop_zero, Nat.lt_irrefl, if_false]
    have htail : (pyRangeF words.length (0 + csz) words.length csz).map
        (fun i => if 0 < i then ' ' :: pyJoin [' '] ((words.drop i).take csz)
          else pyJoin [' '] ((words.drop i).take csz))
        = (groupsOfF words.length csz (words.drop csz)).map
          (fun g' => ' ' :: pyJoin [' '] g') := by
      have hmap : (pyRangeF words.length (0 + csz) words.length csz).map
          (fun i => if 0 < i then ' ' :: pyJoin [' '] ((words.drop i).take csz)
            else pyJoin [' '] ((words.drop i).take csz))
          = (pyRangeF words.length (0 + csz) words.length csz).map
            ((fun g' => ' ' :: pyJoin [' '] g') ∘ (fun i => (words.drop i).take csz)) := by
        apply List.map_congr_left
        intro i hi
        have hge : 0 + csz ≤ i := pyRangeF_ge _ _ _ _ _ hi
        have hipos : 0 < i := by
          have h1 : 1 ≤ csz := le_max_left _ _
          omega
        simp [hipos]
      rw [hmap, ← List.map_map, chunkAlign words csz words.length (0 + csz)]
      have hz : (0 : Nat) + csz = csz := by omega
      rw [hz]
    rw [htail]

theorem pyJoin_cons (sep : List Char) (w : List Char) (ws : List (List Char))
    (h : ws ≠ []) : pyJoin sep (w :: ws) = w ++ sep ++ pyJoin sep ws := by
  cases ws with
  | nil => exact absurd rfl h
  | cons x xs => rfl

theorem pyJoin_append (sep : List Char) :
    ∀ ws1 ws2 : List (List Char), ws1 ≠ [] → ws2 ≠ [] →
      pyJoin sep (ws1 ++ ws2) = pyJoin sep ws1 ++ sep ++ pyJoin sep ws2 := by
  intro ws1
  induction ws1 with
  | nil => intro ws2 h1 _; exact absurd rfl h1
  | cons w ws ih =>
    intro ws2 h1 h2
    cases ws with
    | nil =>
      simp only [List.nil_append, List.cons_append]
      rw [pyJoin_cons sep w ws2 h2]
      rfl
    | cons x xs =>
      have hne : (x :: xs) ++ ws2 ≠ [] := by simp
      rw [List.cons_append, pyJoin_cons sep w ((x :: xs) ++ ws2) hne,
        pyJoin_cons sep w (x :: xs) (by simp), ih ws2 (by simp) h2]
      simp [List.append_assoc]

theorem catList_cons {α : Type} (a : List α) (l : List (List α)) :
    catList (a :: l) = a ++ catList l := rfl

theorem groupsOfF_flat (csz : Nat) (h1 : 1 ≤ csz) :
    ∀ fuel l, l.length ≤ fuel → catList (groupsOfF fuel csz l) = l := by
  intro fuel
  induction fuel with
  | zero =>
    intro l hl
    have : l = [] := by
      cases l with
      | nil => rfl
      | cons a as => simp at hl
    rw [this]; rfl
  | succ n ih =>
    intro l hl
    cases l with
    | nil => rfl
    | cons w ws =>
      have hlen : ((w :: ws).drop csz).length ≤ n := by
        rw [List.length_drop]
        have hcons : (w :: ws).length = ws.length + 1 := by simp
        rw [hcons]
        have hl' : ws.length + 1 ≤ n + 1 := by
          rw [← hcons]
          exact hl
        omega
      rw [groupsOfF, catList_cons, ih ((w :: ws).drop csz) hlen]
      exact List.take_append_drop csz (w :: ws)

theorem groupsOfF_ne_nil (csz : Nat) (h1 : 1 ≤ csz) :
    ∀ fuel l g, g ∈ groupsOfF fuel csz l → g ≠ [] := by
  intro fuel
  induction fuel with
  | zero => intro l g hg; simp [groupsOfF] at hg
  | succ n ih =>
    intro l g hg
    cases l with
    | nil => simp [groupsOfF] at hg
    | cons w ws =>
      rw [groupsOfF] at hg
      rcases List.mem_cons.mp hg with hg | hg
      · rw [hg]
        cases csz with
        | zero => omega
        | succ m => simp [List.take]
      · exact ih _ _ hg

theorem catList_spacePrefixed :
    ∀ gs : List (List (List Char)), (∀ g ∈ gs, g ≠ []) →
      catList (spacePrefixed gs) = pyJoin [' '] (catList gs) := by
  intro gs
  induction gs with
  | nil => intro _; rfl
  | cons g rest ih =>
    intro hne
    cases rest with
    | nil =>
      simp only [spacePrefixed, List.map_nil, catList_cons, catList]
      simp
    | cons g' rest' =>
      have hg : g ≠ [] := hne g (by simp)
      have hrest : ∀ x ∈ g' :: rest', x ≠ [] := by
        intro x hx; exact hne x (by simp [hx])
      have hg' : g' ≠ [] := hrest g' (by simp)
      have hcat : catList (g' :: rest') ≠ ([] : List (List Char)) := by
        rw [catList_cons]
        intro hc
        rcases List.append_eq_nil.mp hc with ⟨hc1, _⟩
        exact hg' hc1
      have hstep : catList (spacePrefixed (g :: g' :: rest'))
          = pyJoin [' '] g ++ (' ' :: catList (spacePrefixed (g' :: rest'))) := by
        rfl
      rw [hstep, ih hrest]
      conv_rhs => rw [catList_cons]
      rw [pyJoin_append [' '] g (catList (g' :: rest')) hg hcat]
      simp

/-- C4: The chunker splits the processed answer on whitespace into words,
groups them into consecutive runs of `chunk_size = max(1, word_count // 20)`
words (the final run may be shorter), and prefixes every fragment after the
first with exactly one space. -/
theorem claim_C4 (answer : List Char) :
    fragmentsSrc answer = fragmentsSpec answer :=
  fragments_eq_spec answer

/-- C1 (amended): joining all fragments emitted by the streaming chunker (each
non-first fragment carrying its single leading space) reconstructs the
single-space join of the whitespace-split words of the post-processed answer
text — not, in general, the post-processed answer text itself. -/
theorem claim_C1_amended (answer : List Char) :
    catList (fragmentsSrc answer) = pyJoin [' '] (pyWords answer) := by
  rw [fragments_eq_spec]
  simp only [fragmentsSpec]
  set words := pyWords answer with hw
  set csz := max 1 (words.length / 20) with hcsz
  have h1 : 1 ≤ csz := le_max_left _ _
  rw [catList_spacePrefixed _ (fun g hg => groupsOfF_ne_nil csz h1 _ _ g hg),
    groupsOfF_flat csz h1 (words.length + 1) words (by omega)]

/-! ### Newline-run and whitespace lemmas -/

theorem countWhile_cons (p : Char → Bool) (c : Char) (l : List Char) :
    countWhile p (c :: l) = if p c then countWhile p l + 1 else 0 := by
  simp only [countWhile, List.takeWhile_cons]
  split <;> simp

theorem hasRun_zero : ∀ l : List Char, hasRun 0 l = true := by
  intro l
  cases l with
  | nil => rfl
  | cons c rest =>
    rw [hasRun]
    simp [List.isPrefixOf]

theorem hasRun_cons_of (m : Nat) (c : Char) (l : List Char)
    (h : hasRun m l = true) : hasRun m (c :: l) = true := by
  rw [hasRun, h]
  simp

theorem replicate_isPrefixOf_iff :
    ∀ (n : Nat) (l : List Char),
      (List.replicate n '\n').isPrefixOf l = true ↔
        n ≤ countWhile (fun d => d = '\n') l := by
  intro n
  induction n with
  | zero => intro l; simp [List.isPrefixOf]
  | succ k ih =>
    intro l
    cases l with
    | nil => simp [List.isPrefixOf, List.replicate_succ, countWhile]
    | cons c rest =>
      rw [List.replicate_succ]
      show (('\n' == c) && (List.replicate k '\n').isPrefixOf rest) = true ↔ _
      rw [countWhile_cons]
      by_cases hc : c = '\n'
      · subst hc
        rw [if_pos (by simp)]
        simp only [beq_self_eq_true, Bool.true_and, ih rest]
        omega
      · have : ('\n' == c) = false := by
          rw [beq_eq_false_iff_ne]
          exact fun h => hc h.symm
        rw [this]
        have : (fun d => d = '\n') c = false := by
          simp [hc]
        rw [if_neg (by simp [hc])]
        simp

theorem countWhile_replicate_append (i : Nat) (out : List Char) :
    countWhile (fun d => d = '\n') (List.replicate i '\n' ++ out)
      = i + countWhile (fun d => d = '\n') out := by
  induction i with
  | zero => simp
  | succ k ih =>
    rw [List.replicate_succ, List.cons_append, countWhile_cons]
    rw [if_pos (by simp : ((fun d => d = '\n') '\n' : Bool) = true)]
    rw [ih]
    omega

theorem hasRun4_replicate_append (j : Nat) (out : List Char) (hj : j ≤ 3)
    (hout : countWhile (fun d => d = '\n') out = 0)
    (h4 : hasRun 4 out = false) :
    hasRun 4 (List.replicate j '\n' ++ out) = false := by
  induction j with
  | zero => simpa using h4
  | succ k ih =>
    rw [List.replicate_succ, List.cons_append, hasRun]
    have hpre : (List.replicate 4 '\n').isPrefixOf
        ('\n' :: (List.replicate k '\n' ++ out)) = false := by
      rw [← Bool.not_eq_true, replicate_isPrefixOf_iff]
      show ¬ 4 ≤ countWhile (fun d => d = '\n') (List.replicate (k + 1) '\n' ++ out)
      rw [countWhile_replicate_append, hout]
      omega
    rw [hpre, ih (by omega)]
    rfl

theorem dropWhile_eq_drop_countWhile (p : Char → Bool) :
    ∀ l : List Char, l.dropWhile p = l.drop (countWhile p l) := by
  intro l
  induction l with
  | nil => rfl
  | cons c rest ih =>
    rw [List.dropWhile_cons, countWhile_cons]
    by_cases hc : p c = true
    · rw [if_pos hc, if_pos hc, ih]
      rfl
    · rw [if_neg hc, if_neg hc]
      rfl

theorem countWhile_dropWhile_eq_zero (p : Char → Bool) :
    ∀ l : List Char, countWhile p (l.dropWhile p) = 0 := by
  intro l
  induction l with
  | nil => rfl
  | cons c rest ih =>
    rw [List.dropWhile_cons]
    by_cases hc : p c = true
    · rw [if_pos hc]; exact ih
    · rw [if_neg hc, countWhile_cons, if_neg hc]

theorem collapse_countWhile_zero (m k fuel : Nat) (l : List Char)
    (h : countWhile (fun d => d = '\n') l = 0) :
    countWhile (fun d => d = '\n') (collapseRunsF m k fuel l) = 0 := by
  cases fuel with
  | zero => exact h
  | succ n =>
    cases l with
    | nil => rfl
    | cons c rest =>
      rw [countWhile_cons] at h
      by_cases hc : c = '\n'
      · rw [if_pos (by simp [hc])] at h
        omega
      · rw [collapseRunsF, if_neg hc, countWhile_cons, if_neg (by simp [hc])]

theorem collapse_no4 : ∀ (fuel : Nat) (cs : List Char), cs.length ≤ fuel →
    hasRun 4 (collapseRunsF 4 3 fuel cs) = false := by
  intro fuel
  induction fuel with
  | zero =>
    intro cs hl
    have : cs = [] := by
      cases cs with
      | nil => rfl
      | cons a as => simp at hl
    rw [this]
    rfl
  | succ n ih =>
    intro cs hl
    cases cs with
    | nil => rfl
    | cons c rest =>
      rw [collapseRunsF]
      by_cases hc : c = '\n'
      · rw [if_pos hc]
        have hr1 : 1 ≤ countWhile (fun d => d = '\n') (c :: rest) := by
          rw [countWhile_cons, if_pos (by simp [hc])]
          omega
        have hdrop : (c :: rest).drop (countWhile (fun d => d = '\n') (c :: rest))
            = (c :: rest).dropWhile (fun d => d = '\n') := by
          rw [dropWhile_eq_drop_countWhile]
        have hlen2 : ((c :: rest).drop (countWhile (fun d => d = '\n') (c :: rest))).length ≤ n := by
          rw [List.length_drop]
          simp only [List.length_cons]
          have : rest.length + 1 ≤ n + 1 := by simpa using hl
          omega
        have hzero : countWhile (fun d => d = '\n')
            ((c :: rest).drop (countWhile (fun d => d = '\n') (c :: rest))) = 0 := by
          rw [hdrop]
          exact countWhile_dropWhile_eq_zero _ _
        have hzero2 : countWhile (fun d => d = '\n')
            (collapseRunsF 4 3 n ((c :: rest).drop (countWhile (fun d => d = '\n') (c :: rest)))) = 0 :=
          collapse_countWhile_zero _ _ _ _ hzero
        have hrun2 : hasRun 4 (collapseRunsF 4 3 n
            ((c :: rest).drop (countWhile (fun d => d = '\n') (c :: rest)))) = false :=
          ih _ hlen2
        by_cases h4 : 4 ≤ countWhile (fun d => d = '\n') (c :: rest)
        · rw [if_pos h4]
          exact hasRun4_replicate_append 3 _ (by omega) hzero2 hrun2
        · rw [if_neg h4]
          exact hasRun4_replicate_append _ _ (by omega) hzero2 hrun2
      · rw [if_neg hc, hasRun]
        have hbeq : ('\n' == c) = false := by
          rw [beq_eq_false_iff_ne]
          exact fun h => hc h.symm
        have hpre : (List.replicate 4 '\n').isPrefixOf
            (c :: collapseRunsF 4 3 n rest) = false := by
          rw [List.replicate_succ]
          have hstep : ('\n' :: List.replicate 3 '\n').isPrefixOf
              (c :: collapseRunsF 4 3 n rest)
              = (('\n' == c) &&
                (List.replicate 3 '\n').isPrefixOf (collapseRunsF 4 3 n rest)) := rfl
          rw [hstep, hbeq, Bool.false_and]
        rw [hpre, ih rest (by simp only [List.length_cons] at hl; omega)]
        rfl

theorem isPrefixOf_take_imp :
    ∀ (s : List Char) (n : Nat) (l : List Char),
      s.isPrefixOf (l.take n) = true → s.isPrefixOf l = true := by
  intro s
  induction s with
  | nil => intro n l _; simp [List.isPrefixOf]
  | cons a s' ih =>
    intro n l h
    cases l with
    | nil => simp [List.isPrefixOf] at h
    | cons c rest =>
      cases n with
      | zero => simp [List.isPrefixOf] at h
      | succ n' =>
        rw [List.take_succ_cons] at h
        have hsplit : ((a == c) && s'.isPrefixOf (rest.take n')) = true := h
        rw [Bool.and_eq_true] at hsplit
        show ((a == c) && s'.isPrefixOf rest) = true
        rw [Bool.and_eq_true]
        exact ⟨hsplit.1, ih n' rest hsplit.2⟩

theorem hasRun_take_imp (m : Nat) :
    ∀ (l : List Char) (n : Nat), hasRun m (l.take n) = true → hasRun m l = true := by
  intro l
  induction l with
  | nil => intro n h; simpa using h
  | cons c rest ih =>
    intro n h
    cases n with
    | zero =>
      have hm : m = 0 := by simpa [hasRun] using h
      rw [hm]
      exact hasRun_zero _
    | succ n' =>
      rw [List.take_succ_cons, hasRun, Bool.or_eq_true] at h
      rcases h with h | h
      · have hpre : (List.replicate m '\n').isPrefixOf (c :: rest) = true := by
          have : c :: rest.take n' = (c :: rest).take (n' + 1) := rfl
          rw [this] at h
          exact isPrefixOf_take_imp _ _ _ h
        rw [hasRun, hpre]
        rfl
      · exact hasRun_cons_of m c rest (ih n' h)

theorem hasRun_drop_imp (m : Nat) :
    ∀ (n : Nat) (l : List Char), hasRun m (l.drop n) = true → hasRun m l = true := by
  intro n
  induction n with
  | zero => intro l h; simpa using h
  | succ n' ih =>
    intro l h
    cases l with
    | nil => simpa using h
    | cons c rest =>
      rw [List.drop_succ_cons] at h
      exact hasRun_cons_of m c rest (ih rest h)

theorem pyStrip_hasRun_imp (m : Nat) (u : List Char)
    (h : hasRun m (pyStrip u) = true) : hasRun m u = true := by
  have hstrip : pyStrip u = (u.dropWhile pyIsSpace).take
      ((u.dropWhile pyIsSpace).reverse.length
        - countWhile pyIsSpace (u.dropWhile pyIsSpace).reverse) := by
    unfold pyStrip
    rw [dropWhile_eq_drop_countWhile pyIsSpace ((u.dropWhile pyIsSpace).reverse),
      List.reverse_drop, List.reverse_reverse]
  rw [hstrip] at h
  have h1 := hasRun_take_imp m _ _ h
  rw [dropWhile_eq_drop_countWhile] at h1
  exact hasRun_drop_imp m _ _ h1

theorem headWS_of_countWhile_zero (l : List Char)
    (h : countWhile pyIsSpace l = 0) : headWS l = false := by
  cases l with
  | nil => rfl
  | cons c rest =>
    rw [countWhile_cons] at h
    by_cases hc : pyIsSpace c = true
    · rw [if_pos hc] at h
      omega
    · show pyIsSpace c = false
      exact Bool.not_eq_true _ ▸ (by simpa using hc)

theorem getLast?_dropWhile_ne (p : Char → Bool) :
    ∀ l : List Char, l.dropWhile p ≠ [] →
      (l.dropWhile p).getLast? = l.getLast? := by
  intro l
  induction l with
  | nil => intro h; exact absurd rfl h
  | cons c rest ih =>
    intro h
    by_cases hc : p c = true
    · rw [List.dropWhile_cons, if_pos hc] at h ⊢
      have hrest : rest ≠ [] := by
        intro hr
        rw [hr] at h
        exact h rfl
      obtain ⟨b, l', hbl⟩ : ∃ b l', rest = b :: l' := by
        cases hr : rest with
        | nil => exact absurd hr hrest
        | cons b l' => exact ⟨b, l', rfl⟩
      rw [ih h, hbl, List.getLast?_cons_cons]
    · rw [List.dropWhile_cons, if_neg hc]

theorem headWS_match (x y : List Char) (hxy : x.head? = y.head?) :
    headWS x = headWS y := by
  unfold headWS
  rw [hxy]

theorem pyStrip_edgeWS (u : List Char) : edgeWS (pyStrip u) = false := by
  have hv : pyStrip u = ((u.dropWhile pyIsSpace).reverse.dropWhile pyIsSpace).reverse := rfl
  by_cases hw : (u.dropWhile pyIsSpace).reverse.dropWhile pyIsSpace = []
  · rw [edgeWS, hv, hw]
    rfl
  · rw [edgeWS, Bool.or_eq_false_iff]
    constructor
    · -- head of result = last of the un-reversed suffix = head of dropWhile
      have hhead : (pyStrip u).head? = (u.dropWhile pyIsSpace).head? := by
        rw [hv, List.head?_reverse, getLast?_dropWhile_ne pyIsSpace _ hw,
          List.getLast?_reverse]
      rw [headWS_match _ _ hhead]
      exact headWS_of_countWhile_zero _ (countWhile_dropWhile_eq_zero pyIsSpace u)
    · have hlast : (pyStrip u).getLast?
          = ((u.dropWhile pyIsSpace).reverse.dropWhile pyIsSpace).head? := by
        rw [hv, List.getLast?_reverse]
      rw [lastWS]
      rw [hlast]
      have hzero := countWhile_dropWhile_eq_zero pyIsSpace (u.dropWhile pyIsSpace).reverse
      have := headWS_of_countWhile_zero _ hzero
      rw [headWS] at this
      exact this

theorem pyStrip_collapse_no4 (u : List Char) :
    hasRun 4 (pyStrip (collapseRunsF 4 3 u.length u)) = false := by
  have h1 := collapse_no4 u.length u le_rfl
  cases h2 : hasRun 4 (pyStrip (collapseRunsF 4 3 u.length u)) with
  | false => rfl
  | true =>
    rw [pyStrip_hasRun_imp _ _ h2] at h1
    exact absurd h1 (by simp)

/-- C2 (amended): normalize-mode post-processing collapses every run of 4 or
more consecutive newlines down to exactly 3 newlines — not 2 — so the output
contains no run of 4 or more newlines (but may contain runs of exactly 3),
and trims leading and trailing whitespace. -/
theorem claim_C2_amended (t : List Char) :
    hasRun 4 (normalize_markdown t) = false ∧ edgeWS (normalize_markdown t) = false := by
  constructor
  · simp only [normalize_markdown]
    exact pyStrip_collapse_no4 _
  · simp only [normalize_markdown]
    exact pyStrip_edgeWS _

/-- C2 counterexample: on input `"a\n\n\n\nb"` the normalize-mode output is
`"a\n\n\nb"`, which contains a run of 3 consecutive newlines — the claim's
"collapses 4+ newlines down to exactly 2 (no blank-line run longer than 2
newlines)" is false on the code, which substitutes `'\n\n\n'`. -/
theorem claim_C2_counterexample :
    normalize_markdown ("a\n\n\n\nb".toList) = "a\n\n\nb".toList ∧
      hasRun 3 (normalize_markdown ("a\n\n\n\nb".toList)) = true := by
  constructor
  · decide
  · decide

/-- C1 counterexample: the post-processed answer text `"a\n\nb"` (a fixed
point of normalize-mode post-processing) chunks into fragments whose join is
`"a b"`, not `"a\n\nb"` — the chunker join reproduces the word sequence, not
the exact text. -/
theorem claim_C1_counterexample :
    normalize_markdown ("a\n\nb".toList) = "a\n\nb".toList ∧
      catList (fragmentsSrc ("a\n\nb".toList)) ≠ "a\n\nb".toList := by
  constructor
  · decide
  · decide

/-! ### Request-pipeline theorems -/

theorem findUserQuery_eq (l : List Msg) :
    findUserQuery l
      = ((l.filter (fun m => decide (m.role = "user".toList))).head?).map Msg.content := by
  induction l with
  | nil => rfl
  | cons m rest ih =>
    rw [findUserQuery]
    by_cases h : m.role = "user".toList
    · rw [if_pos h, List.filter_cons, if_pos (by simpa using h)]
      rfl
    · rw [if_neg h, List.filter_cons, if_neg (by simpa using h), ih]

theorem extract_user_query_eq (messages : List Msg) :
    extract_user_query messages
      = match (messages.filter (fun m => decide (m.role = "user".toList))).getLast? with
        | some m => .ok m.content
        | none => .error ⟨400, .env ⟨"No user message found in request".toList,
            "invalid_request_error".toList, "no_user_message".toList⟩⟩ := by
  rw [extract_user_query, findUserQuery_eq, List.filter_reverse, List.head?_reverse]
  cases (messages.filter (fun m => decide (m.role = "user".toList))).getLast? with
  | some m => rfl
  | none => rfl

/-- C6: the extracted query is the content of the most recent `user`-role
message; with no `user`-role message (whatever other roles are present) the
request fails with a raised HTTP 400, type `invalid_request_error`, code
`no_user_message` — both at the `extract_user_query` level and, for a request
that passes the auth check and notebook resolution, at the
`chat_completions` level. -/
theorem claim_C6 (messages : List Msg) :
    (∀ m : Msg, (messages.filter (fun x => decide (x.role = "user".toList))).getLast? = some m →
      extract_user_query messages = .ok m.content)
    ∧ ((messages.filter (fun x => decide (x.role = "user".toList))).getLast? = none →
      extract_user_query messages = .error ⟨400, .env ⟨"No user message found in request".toList,
        "invalid_request_error".toList, "no_user_message".toList⟩⟩)
    ∧ (∀ (cfg : Config) (uuidHex : List Char) (now : Nat) (req : ChatRequest)
        (auth : Option (List Char)) (b : Backend),
        req.messages = messages →
        verify_api_key cfg.apiKey auth = true →
        (resolve_notebook cfg req).isEmpty = false →
        (messages.filter (fun x => decide (x.role = "user".toList))).getLast? = none →
        chat_completions cfg uuidHex now req auth b
          = .error ⟨400, .env ⟨"No user message found in request".toList,
            "invalid_request_error".toList, "no_user_message".toList⟩⟩) := by
  refine ⟨?_, ?_, ?_⟩
  · intro m hm
    rw [extract_user_query_eq, hm]
  · intro hm
    rw [extract_user_query_eq, hm]
  · intro cfg uuidHex now req auth b hmsg hauth hnb hm
    rw [chat_completions, if_neg (by rw [hauth]; simp)]
    rw [if_neg (by rw [hnb]; simp)]
    rw [hmsg, extract_user_query_eq, hm]

theorem claim_C6_witness :
    (([⟨"system".toList, "s".toList⟩, ⟨"user".toList, "q1".toList⟩,
        ⟨"assistant".toList, "a".toList⟩,
        ⟨"user".toList, "q2".toList⟩] : List Msg).filter
          (fun x => decide (x.role = "user".toList))).getLast?
        = some ⟨"user".toList, "q2".toList⟩
    ∧ extract_user_query [⟨"system".toList, "s".toList⟩, ⟨"user".toList, "q1".toList⟩,
        ⟨"assistant".toList, "a".toList⟩, ⟨"user".toList, "q2".toList⟩]
        = .ok ("q2".toList)
    ∧ (([⟨"assistant".toList, "a".toList⟩] : List Msg).filter
          (fun x => decide (x.role = "user".toList))).getLast? = none
    ∧ extract_user_query [⟨"assistant".toList, "a".toList⟩]
        = .error ⟨400, .env ⟨"No user message found in request".toList,
            "invalid_request_error".toList, "no_user_message".toList⟩⟩ :=
  ⟨by decide,
    (claim_C6 _).1 ⟨"user".toList, "q2".toList⟩ (by decide),
    by decide,
    (claim_C6 _).2.1 (by decide)⟩

/-- C7 counterexample: with the configured key `"Bearer x"`, a request
carrying exactly that raw key as its credential is rejected — the handler
strips the leading `"Bearer "` and compares the remainder `"x"` with the
key — so "every request carrying the exact key raw passes" is false.  The
request is rejected with HTTP 401. -/
theorem claim_C7_counterexample :
    verify_api_key ("Bearer x".toList) (some ("Bearer x".toList)) = false ∧
      chat_completions ⟨"Bearer x".toList, "nb".toList, false⟩ [] 0
        ⟨"m".toList, [], false, none⟩ (some ("Bearer x".toList)) ⟨.ok (), .ok []⟩
        = .error ⟨401, .str ("Invalid API key".toList)⟩ := by
  constructor
  · decide
  · rfl

/-- C7 (amended): when no key is configured every request passes.  When a key
is configured: a missing credential is rejected; a credential passes exactly
when it equals the key after stripping one leading `"Bearer "` prefix (so the
`"Bearer "`-prefixed exact key always passes, and the raw exact key passes
unless the key itself starts with `"Bearer "`); any rejected request receives
a raised HTTP 401. -/
theorem claim_C7_amended (apiKey : List Char) :
    (apiKey = [] → ∀ auth, verify_api_key apiKey auth = true)
    ∧ (apiKey ≠ [] →
        verify_api_key apiKey none = false
        ∧ (∀ c, verify_api_key apiKey (some c) = true ↔ stripBearerToken c = apiKey)
        ∧ verify_api_key apiKey (some ("Bearer ".toList ++ apiKey)) = true
        ∧ (("Bearer ".toList).isPrefixOf apiKey = false →
            verify_api_key apiKey (some apiKey) = true))
    ∧ (∀ (cfg : Config) (uuidHex : List Char) (now : Nat) (req : ChatRequest)
        (auth : Option (List Char)) (b : Backend),
        verify_api_key cfg.apiKey auth = false →
        chat_completions cfg uuidHex now req auth b
          = .error ⟨401, .str ("Invalid API key".toList)⟩) := by
  refine ⟨?_, ?_, ?_⟩
  · intro h auth
    rw [h]
    rfl
  · intro h
    obtain ⟨a, l, hal⟩ : ∃ a l, apiKey = a :: l := by
      cases hk : apiKey with
      | nil => exact absurd hk h
      | cons a l => exact ⟨a, l, rfl⟩
    subst hal
    refine ⟨rfl, ?_, ?_, ?_⟩
    · intro c
      show (stripBearerToken c == a :: l) = true ↔ _
      rw [beq_iff_eq]
    · show (stripBearerToken ("Bearer ".toList ++ a :: l) == a :: l) = true
      rw [stripBearerToken, if_pos (by simp [List.isPrefixOf])]
      simp
    · intro hpre
      show (stripBearerToken (a :: l) == a :: l) = true
      rw [stripBearerToken, if_neg (by rw [hpre]; simp)]
      simp
  · intro cfg uuidHex now req auth b hfail
    rw [chat_completions, if_pos hfail]

theorem claim_C7_witness :
    (("k".toList : List Char) ≠ [] ∧ verify_api_key ("k".toList) none = false)
    ∧ (([] : List Char) = [] ∧ verify_api_key [] (some ("z".toList)) = true)
    ∧ (verify_api_key ("k".toList) (some ("w".toList)) = false ∧
        chat_completions ⟨"k".toList, "nb".toList, false⟩ [] 0
          ⟨"m".toList, [], false, none⟩ (some ("w".toList)) ⟨.ok (), .ok []⟩
          = .error ⟨401, .str ("Invalid API key".toList)⟩) :=
  ⟨⟨by decide, ((claim_C7_amended ("k".toList)).2.1 (by decide)).1⟩,
    ⟨rfl, (claim_C7_amended []).1 rfl (some ("z".toList))⟩,
    ⟨by decide, (claim_C7_amended ("k".toList)).2.2 _ [] 0 _ _ _ (by decide)⟩⟩

theorem extract_error_shape (messages : List Msg) (r : Raised)
    (h : extract_user_query messages = .error r) :
    r = ⟨400, .env ⟨"No user message found in request".toList,
      "invalid_request_error".toList, "no_user_message".toList⟩⟩ := by
  rw [extract_user_query] at h
  cases hf : findUserQuery messages.reverse with
  | some content => rw [hf] at h; exact absurd h (by simp)
  | none =>
    rw [hf] at h
    injection h with h2
    exact h2.symm

theorem non_stream_error_shape (cleanMd : Bool) (uuidHex : List Char) (now : Nat)
    (modelName query : List Char) (b : Backend) (r : Raised)
    (h : non_stream_chat_completion cleanMd uuidHex now modelName query b = .error r) :
    r.status = 500 := by
  rw [non_stream_chat_completion] at h
  cases hp : ask_pipeline b with
  | error e =>
    rw [hp] at h
    simp only [Except.error.injEq] at h
    rw [← h]
  | ok ans =>
    rw [hp] at h
    exact absurd h (by simp)

/-- C9: an explicitly supplied empty-string `notebook_id` is treated as
absent — the request falls back to the process-wide default notebook id, and
it fails with the HTTP 400 `missing_notebook_id` error exactly when that
default is also empty. -/
theorem claim_C9 (cfg : Config) (uuidHex : List Char) (now : Nat)
    (req : ChatRequest) (auth : Option (List Char)) (b : Backend)
    (hauth : verify_api_key cfg.apiKey auth = true)
    (hempty : req.notebook_id = some []) :
    resolve_notebook cfg req = cfg.defaultNotebookId
    ∧ isMissingNotebookError (chat_completions cfg uuidHex now req auth b)
        = cfg.defaultNotebookId.isEmpty := by
  have hres : resolve_notebook cfg req = cfg.defaultNotebookId := by
    rw [resolve_notebook, hempty]
    rfl
  refine ⟨hres, ?_⟩
  rw [chat_completions, if_neg (by rw [hauth]; simp)]
  cases hdef : cfg.defaultNotebookId.isEmpty with
  | true =>
    rw [if_pos (by rw [hres]; exact hdef)]
    rfl
  | false =>
    rw [if_neg (by rw [hres, hdef]; simp)]
    cases hx : extract_user_query req.messages with
    | error r =>
      have hshape := extract_error_shape _ _ hx
      subst hshape
      rfl
    | ok query =>
      dsimp only
      cases hs : req.stream with
      | true => rfl
      | false =>
        cases hn : non_stream_chat_completion cfg.cleanMarkdown uuidHex now req.model query b with
        | error r =>
          have h500 := non_stream_error_shape _ _ _ _ _ _ _ hn
          cases r with
          | mk status detail =>
            simp only at h500
            subst h500
            cases detail with
            | str s => rfl
            | env e => rfl
        | ok resp => rfl

theorem claim_C9_witness :
    verify_api_key ([] : List Char) none = true
    ∧ (some ([] : List Char) = some [])
    ∧ (resolve_notebook ⟨[], [], false⟩ ⟨"m".toList, [], false, some []⟩ = []
      ∧ isMissingNotebookError (chat_completions ⟨[], [], false⟩ [] 0
          ⟨"m".toList, [], false, some []⟩ none ⟨.ok (), .ok []⟩)
        = (([] : List Char)).isEmpty) :=
  ⟨by decide, rfl,
    claim_C9 ⟨[], [], false⟩ [] 0 ⟨"m".toList, [], false, some []⟩ none
      ⟨.ok (), .ok []⟩ (by decide) rfl⟩

/-- C3: every failure of backend client construction, authentication, or the
ask call surfaces as `server_error`: on the non-streaming path a raised HTTP
500 whose envelope has type `server_error`, and on the streaming path a
single error event — the sole payload of the stream — with type
`server_error`. -/
theorem claim_C3 (cleanMd : Bool) (uuidHex : List Char) (now : Nat)
    (modelName query msg : List Char) :
    (∀ ask : Except (List Char) (List Char), ∃ m,
        non_stream_chat_completion cleanMd uuidHex now modelName query ⟨.error msg, ask⟩
          = .error ⟨500, .env ⟨m, "server_error".toList, "processing_failed".toList⟩⟩)
    ∧ (∃ m, non_stream_chat_completion cleanMd uuidHex now modelName query ⟨.ok (), .error msg⟩
          = .error ⟨500, .env ⟨m, "server_error".toList, "processing_failed".toList⟩⟩)
    ∧ (∀ ask : Except (List Char) (List Char), ∃ m,
        stream_chat_completion cleanMd uuidHex now modelName ⟨.error msg, ask⟩
          = [.errorEvent ⟨m, "server_error".toList, "streaming_failed".toList⟩])
    ∧ (∃ m, stream_chat_completion cleanMd uuidHex now modelName ⟨.ok (), .error msg⟩
          = [.errorEvent ⟨m, "server_error".toList, "streaming_failed".toList⟩]) := by
  refine ⟨fun ask => ⟨_, rfl⟩, ⟨_, rfl⟩, fun ask => ⟨_, rfl⟩, ⟨_, rfl⟩⟩

/-- C5: every streamed event sequence terminates in exactly one of two ways:
on success the `[DONE]` sentinel is the final event, occurring exactly once,
with no error event anywhere; on failure the stream is a single error event
and contains no `[DONE]`. -/
theorem claim_C5 (cleanMd : Bool) (uuidHex : List Char) (now : Nat)
    (modelName : List Char) (b : Backend) :
    ((stream_chat_completion cleanMd uuidHex now modelName b).getLast?
        = some SSE.doneEvent
      ∧ (stream_chat_completion cleanMd uuidHex now modelName b).countP isErrorEv = 0
      ∧ (stream_chat_completion cleanMd uuidHex now modelName b).countP isDoneEv = 1)
    ∨ ((∃ env, stream_chat_completion cleanMd uuidHex now modelName b
          = [SSE.errorEvent env])
      ∧ (stream_chat_completion cleanMd uuidHex now modelName b).countP isDoneEv = 0) := by
  cases hp : ask_pipeline b with
  | error e =>
    have hev : stream_chat_completion cleanMd uuidHex now modelName b
        = [SSE.errorEvent ⟨strOfErr e, "server_error".toList,
            "streaming_failed".toList⟩] := by
      simp only [stream_chat_completion, hp]
    rw [hev]
    right
    exact ⟨⟨_, rfl⟩, rfl⟩
  | ok raw =>
    have hev : stream_chat_completion cleanMd uuidHex now modelName b
        = ((fragmentsSrc (postProcess cleanMd raw)).map (fun content =>
            SSE.chunkEvent ⟨"chatcmpl-".toList ++ uuidHex, now, modelName,
              [⟨some content, none⟩]⟩))
          ++ [SSE.chunkEvent ⟨"chatcmpl-".toList ++ uuidHex, now, modelName,
              [⟨none, some ("stop".toList)⟩]⟩, SSE.doneEvent] := by
      simp only [stream_chat_completion, hp]
    rw [hev]
    left
    set deltas := (fragmentsSrc (postProcess cleanMd raw)).map (fun content =>
      SSE.chunkEvent ⟨"chatcmpl-".toList ++ uuidHex, now, modelName,
        [⟨some content, none⟩]⟩) with hdeltas
    set c1 : SSE := SSE.chunkEvent ⟨"chatcmpl-".toList ++ uuidHex, now, modelName,
      [⟨none, some ("stop".toList)⟩]⟩ with hc1
    have hdeltas_err : deltas.countP isErrorEv = 0 := by
      rw [List.countP_eq_zero]
      intro a ha
      rw [hdeltas] at ha
      obtain ⟨x, _, hx⟩ := List.mem_map.mp ha
      rw [← hx]
      simp [isErrorEv]
    have hdeltas_done : deltas.countP isDoneEv = 0 := by
      rw [List.countP_eq_zero]
      intro a ha
      rw [hdeltas] at ha
      obtain ⟨x, _, hx⟩ := List.mem_map.mp ha
      rw [← hx]
      simp [isDoneEv]
    refine ⟨?_, ?_, ?_⟩
    · have hsplit : deltas ++ [c1, SSE.doneEvent]
          = (deltas ++ [c1]) ++ [SSE.doneEvent] := by
        simp
      rw [hsplit, List.getLast?_concat]
    · rw [List.countP_append, hdeltas_err]
      rfl
    · rw [List.countP_append, hdeltas_done]
      rfl

/-- C10: within one streamed response, every chunk event — the delta chunks
and the final `finish_reason="stop"` marker — carries the completion id and
created timestamp fixed once at the start of the stream. -/
theorem claim_C10 (cleanMd : Bool) (uuidHex : List Char) (now : Nat)
    (modelName : List Char) (b : Backend) :
    (stream_chat_completion cleanMd uuidHex now modelName b).all
      (chunkHasIdCreated ("chatcmpl-".toList ++ uuidHex) now) = true := by
  cases hp : ask_pipeline b with
  | error e =>
    have hev : stream_chat_completion cleanMd uuidHex now modelName b
        = [SSE.errorEvent ⟨strOfErr e, "server_error".toList,
            "streaming_failed".toList⟩] := by
      simp only [stream_chat_completion, hp]
    rw [hev]
    rfl
  | ok raw =>
    have hev : stream_chat_completion cleanMd uuidHex now modelName b
        = ((fragmentsSrc (postProcess cleanMd raw)).map (fun content =>
            SSE.chunkEvent ⟨"chatcmpl-".toList ++ uuidHex, now, modelName,
              [⟨some content, none⟩]⟩))
          ++ [SSE.chunkEvent ⟨"chatcmpl-".toList ++ uuidHex, now, modelName,
              [⟨none, some ("stop".toList)⟩]⟩, SSE.doneEvent] := by
      simp only [stream_chat_completion, hp]
    rw [hev, List.all_append]
    have h1 : ((fragmentsSrc (postProcess cleanMd raw)).map (fun content =>
        SSE.chunkEvent ⟨"chatcmpl-".toList ++ uuidHex, now, modelName,
          [⟨some content, none⟩]⟩)).all
        (chunkHasIdCreated ("chatcmpl-".toList ++ uuidHex) now) = true := by
      rw [List.all_eq_true]
      intro a ha
      obtain ⟨x, _, hx⟩ := List.mem_map.mp ha
      rw [← hx]
      simp [chunkHasIdCreated]
    rw [h1]
    simp [chunkHasIdCreated]

/-! ### Strip-mode identity on plain text (C8) -/

theorem take_countWhile_eq_takeWhile (p : Char → Bool) :
    ∀ l : List Char, l.take (countWhile p l) = l.takeWhile p := by
  intro l
  induction l with
  | nil => rfl
  | cons c rest ih =>
    rw [countWhile_cons, List.takeWhile_cons]
    by_cases hc : p c = true
    · rw [if_pos hc, if_pos hc, List.take_succ_cons, ih]
    · rw [if_neg hc, if_neg hc]
      rfl

theorem takeWhile_nl_replicate :
    ∀ l : List Char, l.takeWhile (fun d => d = '\n')
      = List.replicate (countWhile (fun d => d = '\n') l) '\n' := by
  intro l
  induction l with
  | nil => rfl
  | cons c rest ih =>
    rw [countWhile_cons, List.takeWhile_cons]
    by_cases hc : ((fun d => d = '\n') c : Bool) = true
    · rw [if_pos hc, if_pos hc, List.replicate_succ, ih]
      have : c = '\n' := by simpa using hc
      rw [this]
    · rw [if_neg hc, if_neg hc]
      rfl

theorem hasRun_cons_false (m : Nat) (c : Char) (rest : List Char)
    (h : hasRun m (c :: rest) = false) : hasRun m rest = false := by
  rw [hasRun, Bool.or_eq_false_iff] at h
  exact h.2

theorem s1F_id : ∀ (fuel : Nat) (b : Bool) (cs : List Char),
    '#' ∉ cs → s1F fuel b cs = cs := by
  intro fuel
  induction fuel with
  | zero => intro b cs _; rfl
  | succ n ih =>
    intro b cs hmem
    cases cs with
    | nil => rfl
    | cons c rest =>
      have hc : c ≠ '#' := fun h => hmem (h ▸ List.mem_cons_self c rest)
      have hr0 : countWhile (fun d => d = '#') (c :: rest) = 0 := by
        rw [countWhile_cons, if_neg (by simp [hc])]
      simp only [s1F]
      rw [if_neg (fun hcon => absurd hcon.2.1 (by rw [hr0]; omega))]
      rw [ih (c == '\n') rest (fun h => hmem (List.mem_cons_of_mem c h))]

theorem subDelimF_id (d : Char) (ds : List Char) :
    ∀ (fuel : Nat) (cs : List Char), d ∉ cs → subDelimF (d :: ds) fuel cs = cs := by
  intro fuel
  induction fuel with
  | zero => intro cs _; rfl
  | succ n ih =>
    intro cs hmem
    cases cs with
    | nil => rfl
    | cons c rest =>
      have hc : d ≠ c := fun h => hmem (h ▸ List.mem_cons_self c rest)
      have hpre : ((d :: ds).isPrefixOf (c :: rest)) = false := by
        show ((d == c) && ds.isPrefixOf rest) = false
        rw [beq_eq_false_iff_ne.mpr hc, Bool.false_and]
      simp only [subDelimF]
      rw [if_neg (by rw [hpre]; simp)]
      rw [ih rest (fun h => hmem (List.mem_cons_of_mem c h))]

theorem s6F_id : ∀ (fuel : Nat) (b : Bool) (cs : List Char),
    (∀ x ∈ cs, x ≠ '*' ∧ x ≠ '-' ∧ x ≠ '+') → s6F fuel b cs = cs := by
  intro fuel
  induction fuel with
  | zero => intro b cs _; rfl
  | succ n ih =>
    intro b cs hmem
    cases cs with
    | nil => rfl
    | cons c rest =>
      have hbul : isBulletOpt ((c :: rest).drop
          (countWhile pyIsSpace (c :: rest))).head? = false := by
        cases hw : (c :: rest).drop (countWhile pyIsSpace (c :: rest)) with
        | nil => rfl
        | cons x xs =>
          have hx : x ∈ c :: rest := by
            have : x ∈ (c :: rest).drop (countWhile pyIsSpace (c :: rest)) := by
              rw [hw]; exact List.mem_cons_self x xs
            exact List.drop_subset _ _ this
          obtain ⟨h1, h2, h3⟩ := hmem x hx
          show ((x = '*' : Bool) || (x = '-' : Bool) || (x = '+' : Bool)) = false
          simp [h1, h2, h3]
      simp only [s6F]
      rw [if_neg (fun hcon => by rw [hbul] at hcon; exact absurd hcon.2.1 (by simp))]
      rw [ih (c == '\n') rest (fun x hx => hmem x (List.mem_cons_of_mem c hx))]

theorem s7F_id : ∀ (fuel : Nat) (b : Bool) (cs : List Char),
    (∀ x ∈ cs, x.isDigit = false) → s7F fuel b cs = cs := by
  intro fuel
  induction fuel with
  | zero => intro b cs _; rfl
  | succ n ih =>
    intro b cs hmem
    cases cs with
    | nil => rfl
    | cons c rest =>
      have hd0 : countWhile Char.isDigit
          ((c :: rest).drop (countWhile pyIsSpace (c :: rest))) = 0 := by
        cases hw : (c :: rest).drop (countWhile pyIsSpace (c :: rest)) with
        | nil => rfl
        | cons x xs =>
          have hx : x ∈ c :: rest := by
            have : x ∈ (c :: rest).drop (countWhile pyIsSpace (c :: rest)) := by
              rw [hw]; exact List.mem_cons_self x xs
            exact List.drop_subset _ _ this
          rw [countWhile_cons, if_neg (by rw [hmem x hx]; simp)]
      simp only [s7F]
      rw [if_neg (fun hcon => absurd hcon.2.1 (by rw [hd0]; omega))]
      rw [ih (c == '\n') rest (fun x hx => hmem x (List.mem_cons_of_mem c hx))]

theorem s8F_id : ∀ (fuel : Nat) (cs : List Char),
    btk ∉ cs → s8F fuel cs = cs := by
  intro fuel
  induction fuel with
  | zero => intro cs _; rfl
  | succ n ih =>
    intro cs hmem
    cases cs with
    | nil => rfl
    | cons c rest =>
      have hc : btk ≠ c := fun h => hmem (h ▸ List.mem_cons_self c rest)
      have hpre : ((btk :: btk :: [btk]).isPrefixOf (c :: rest)) = false := by
        show ((btk == c) && (btk :: [btk]).isPrefixOf rest) = false
        rw [beq_eq_false_iff_ne.mpr hc, Bool.false_and]
      simp only [s8F]
      rw [if_neg (fun hcon => by rw [hpre] at hcon; exact absurd hcon.1 (by simp))]
      rw [ih rest (fun h => hmem (List.mem_cons_of_mem c h))]

theorem s9F_id : ∀ (fuel : Nat) (cs : List Char),
    btk ∉ cs → s9F fuel cs = cs := by
  intro fuel
  induction fuel with
  | zero => intro cs _; rfl
  | succ n ih =>
    intro cs hmem
    cases cs with
    | nil => rfl
    | cons c rest =>
      have hc : btk ≠ c := fun h => hmem (h ▸ List.mem_cons_self c rest)
      have hpre : ((btk :: btk :: [btk]).isPrefixOf (c :: rest)) = false := by
        show ((btk == c) && (btk :: [btk]).isPrefixOf rest) = false
        rw [beq_eq_false_iff_ne.mpr hc, Bool.false_and]
      simp only [s9F]
      rw [if_neg (by rw [hpre]; simp)]
      rw [ih rest (fun h => hmem (List.mem_cons_of_mem c h))]

theorem s11F_id : ∀ (fuel : Nat) (cs : List Char),
    '[' ∉ cs → s11F fuel cs = cs := by
  intro fuel
  induction fuel with
  | zero => intro cs _; rfl
  | succ n ih =>
    intro cs hmem
    cases cs with
    | nil => rfl
    | cons c rest =>
      have hc : c ≠ '[' := fun h => hmem (h ▸ List.mem_cons_self c rest)
      simp only [s11F]
      rw [if_neg hc]
      rw [ih rest (fun h => hmem (List.mem_cons_of_mem c h))]

theorem collapse32_id : ∀ (fuel : Nat) (cs : List Char),
    hasRun 3 cs = false → collapseRunsF 3 2 fuel cs = cs := by
  intro fuel
  induction fuel with
  | zero => intro cs _; rfl
  | succ n ih =>
    intro cs hrun
    cases cs with
    | nil => rfl
    | cons c rest =>
      by_cases hc : c = '\n'
      · have hr2 : ¬ 3 ≤ countWhile (fun d => d = '\n') (c :: rest) := by
          intro h3
          have hpre : (List.replicate 3 '\n').isPrefixOf (c :: rest) = true :=
            (replicate_isPrefixOf_iff 3 (c :: rest)).mpr h3
          rw [hasRun, hpre] at hrun
          simp at hrun
        have hdrop : hasRun 3 ((c :: rest).drop
            (countWhile (fun d => d = '\n') (c :: rest))) = false := by
          cases hx : hasRun 3 ((c :: rest).drop
              (countWhile (fun d => d = '\n') (c :: rest))) with
          | false => rfl
          | true => rw [hasRun_drop_imp 3 _ _ hx] at hrun; exact absurd hrun (by simp)
        rw [collapseRunsF, if_pos hc, if_neg hr2, ih _ hdrop]
        rw [← takeWhile_nl_replicate, ← take_countWhile_eq_takeWhile]
        exact List.take_append_drop _ _
      · rw [collapseRunsF, if_neg hc, ih rest (hasRun_cons_false 3 c rest hrun)]

theorem pyStrip_id (cs : List Char) (h : edgeWS cs = false) : pyStrip cs = cs := by
  rw [edgeWS, Bool.or_eq_false_iff] at h
  obtain ⟨hh, hl⟩ := h
  have h1 : cs.dropWhile pyIsSpace = cs := by
    cases cs with
    | nil => rfl
    | cons c rest =>
      simp only [headWS, List.head?] at hh
      rw [List.dropWhile_cons, if_neg (by rw [hh]; simp)]
  rw [pyStrip, h1]
  have h2 : cs.reverse.dropWhile pyIsSpace = cs.reverse := by
    cases hrev : cs.reverse with
    | nil => rfl
    | cons x xs =>
      have hx : cs.getLast? = some x := by
        rw [← List.head?_reverse, hrev]
        rfl
      rw [lastWS, hx] at hl
      have hlx : pyIsSpace x = false := hl
      rw [List.dropWhile_cons, if_neg (by rw [hlx]; simp)]
  rw [h2, List.reverse_reverse]

/-- C8: strip-mode post-processing is the identity on plain text (no markdown
metacharacters or digits, no 3-newline run, no leading/trailing whitespace) —
so it is idempotent on such already-stripped text — and on the spec's example
`"Hello **world**, see [here](http://x)."` it produces exactly
`"Hello world, see here."`. -/
theorem claim_C8 :
    (∀ t : List Char, plainText t = true → clean_markdown_text t = t)
    ∧ clean_markdown_text ("Hello **world**, see [here](http://x).".toList)
        = "Hello world, see here.".toList := by
  constructor
  · intro t hp
    rw [plainText, Bool.and_eq_true, Bool.and_eq_true] at hp
    obtain ⟨⟨hall, hrun⟩, hedge⟩ := hp
    rw [List.all_eq_true] at hall
    have hfacts : ∀ c ∈ t, c ≠ '#' ∧ c ≠ '*' ∧ c ≠ '_' ∧ c ≠ btk ∧ c ≠ '[' ∧
        c ≠ '-' ∧ c ≠ '+' ∧ c.isDigit = false := by
      intro c hc
      have h2 := hall c hc
      rw [okChar, Bool.not_eq_true'] at h2
      simp only [Bool.or_eq_false_iff, decide_eq_false_iff_not] at h2
      exact ⟨h2.1.1.1.1.1.1.1, h2.1.1.1.1.1.1.2, h2.1.1.1.1.1.2, h2.1.1.1.1.2,
        h2.1.1.1.2, h2.1.1.2, h2.1.2, h2.2⟩
    have hrun3 : hasRun 3 t = false := by
      rw [Bool.not_eq_true'] at hrun
      exact hrun
    have hedge2 : edgeWS t = false := by
      rw [Bool.not_eq_true'] at hedge
      exact hedge
    have hhash : '#' ∉ t := fun hm => ((hfacts _ hm).1 rfl)
    have hstar : '*' ∉ t := fun hm => ((hfacts _ hm).2.1 rfl)
    have hund : '_' ∉ t := fun hm => ((hfacts _ hm).2.2.1 rfl)
    have hbtk : btk ∉ t := fun hm => ((hfacts _ hm).2.2.2.1 rfl)
    have hbrack : '[' ∉ t := fun hm => ((hfacts _ hm).2.2.2.2.1 rfl)
    have hbullets : ∀ x ∈ t, x ≠ '*' ∧ x ≠ '-' ∧ x ≠ '+' := fun x hx =>
      ⟨(hfacts _ hx).2.1, (hfacts _ hx).2.2.2.2.2.1, (hfacts _ hx).2.2.2.2.2.2.1⟩
    have hdigits : ∀ x ∈ t, x.isDigit = false := fun x hx =>
      (hfacts _ hx).2.2.2.2.2.2.2
    simp only [clean_markdown_text]
    rw [s1F_id _ _ _ hhash]
    rw [subDelimF_id '*' ['*'] _ _ hstar]
    rw [subDelimF_id '_' ['_'] _ _ hund]
    rw [subDelimF_id '*' [] _ _ hstar]
    rw [subDelimF_id '_' [] _ _ hund]
    rw [s6F_id _ _ _ hbullets]
    rw [s7F_id _ _ _ hdigits]
    rw [s8F_id _ _ hbtk]
    rw [s9F_id _ _ hbtk]
    rw [subDelimF_id btk [] _ _ hbtk]
    rw [s11F_id _ _ hbrack]
    rw [collapse32_id _ _ hrun3]
    exact pyStrip_id _ hedge2
  · decide

theorem claim_C8_witness :
    plainText ("Hello world, see here.".toList) = true
    ∧ clean_markdown_text ("Hello world, see here.".toList)
        = "Hello world, see here.".toList :=
  ⟨by decide, claim_C8.1 ("Hello world, see here.".toList) (by decide)⟩

end NLM
